import Mathlib

/-!
Verification of the extension-management and remote-agent-environment core:

* `src/vs/workbench/services/extensionManagement/common/webExtensionManagementService.ts`
* `src/vs/server/remoteAgentEnvironmentImpl.ts`

The TypeScript is shallowly embedded: optional/`undefined`-able fields become
`Option`, JavaScript truthiness-based `||` on optional booleans becomes `jsOr`,
class state threaded through methods becomes explicit arguments/results, and
collaborator services that live outside the two embedded files are passed in as
explicit data (scanner outputs, the installed store, the current time).
-/

namespace Spec2Proof

/-! ## JavaScript semantics helpers -/

/-- JavaScript `a || b` on two possibly-`undefined` boolean values: the result
is `a` when `a` is truthy (i.e. `true`), otherwise `b`.  In particular
`undefined || b = b` and `false || b = b`. -/
def jsOr (a b : Option Bool) : Option Bool :=
  match a with
  | some true => some true
  | _ => b

/-! ## webExtensionManagementService.ts : data model -/

/-- `ExtensionType` from `vs/platform/extensions/common/extensions`. -/
inductive ExtensionType where
  | System
  | User
deriving DecidableEq, Repr

/-- `InstallOperation` from `vs/platform/extensionManagement/common/extensionManagement`
(only the members used by the embedded file). -/
inductive InstallOperation where
  | Install
  | Update
deriving DecidableEq, Repr

/-- `IExtensionIdentifier`: an id (`publisher.name`) plus an optional UUID. -/
structure IExtensionIdentifier where
  id : String
  uuid : Option String := none
deriving DecidableEq, Repr

/-- `Metadata` of an installed extension.  Every field may be `undefined` in the
source, hence the `Option`s. -/
structure Metadata where
  id : Option String := none
  publisherId : Option String := none
  publisherDisplayName : Option String := none
  installedTimestamp : Option Nat := none
  isPreReleaseVersion : Option Bool := none
  preRelease : Option Bool := none
  isMachineScoped : Option Bool := none
  isApplicationScoped : Option Bool := none
  isBuiltin : Option Bool := none
  isSystem : Option Bool := none
  updated : Option Bool := none
deriving DecidableEq, Repr

/-- `InstallOptions` (the fields the embedded file reads). -/
structure InstallOptions where
  isBuiltin : Option Bool := none
  isMachineScoped : Option Bool := none
  installPreReleaseVersion : Option Bool := none
  operation : Option InstallOperation := none
deriving DecidableEq, Repr

/-- The `properties` slice of `IGalleryExtension` used by the embedded file. -/
structure GalleryExtensionProperties where
  isPreReleaseVersion : Bool
deriving DecidableEq, Repr

/-- The slice of `IGalleryExtension` read by `webExtensionManagementService.ts`. -/
structure GalleryExtension where
  identifier : IExtensionIdentifier
  publisherId : String
  publisherDisplayName : String
  properties : GalleryExtensionProperties
deriving DecidableEq, Repr

/-- The slice of `IScannedExtension` (result of
`webExtensionsScannerService.scanUserExtensions`) read by the embedded file. -/
structure IScannedExtension where
  identifier : IExtensionIdentifier
  type : ExtensionType
  isBuiltin : Bool
  metadata : Option Metadata := none
deriving DecidableEq, Repr

/-- The slice of `IExtensionManifest` read by the embedded file. -/
structure IExtensionManifest where
  name : String
  publisher : String
deriving DecidableEq, Repr

/-- The `extension` argument of an `InstallExtensionTask`: either a direct
location (`URI`) or a gallery extension. -/
inductive InstallSource where
  | uri (location : String)
  | gallery (g : GalleryExtension)
deriving DecidableEq, Repr

/-- Character-wise lowercasing of a string (used to model the case-insensitive
identity keys of the spec). -/
def toLowerStr (s : String) : String :=
  ⟨s.data.map Char.toLower⟩

/-- Modelled from the spec: `areSameExtensions`
(`vs/platform/extensionManagement/common/extensionManagementUtil`, not part of
the embedded sources).  "Two identifiers are `the same extension` iff their
lowercase `publisher.name` keys match, regardless of UUID presence." -/
def areSameExtensions (a b : IExtensionIdentifier) : Bool :=
  toLowerStr a.id == toLowerStr b.id

/-- Modelled from the spec: `getGalleryExtensionId`
(`vs/platform/extensionManagement/common/extensionManagementUtil`, not part of
the embedded sources): the case-insensitive `publisher.name` key. -/
def getGalleryExtensionId (publisher name : String) : String :=
  toLowerStr (publisher ++ "." ++ name)

/-! ## webExtensionManagementService.ts : functions -/

/-- `getMetadata(options?, existingExtension?)` (lines 136-140): spread the
existing extension's metadata (or `{}`), then overlay
`isMachineScoped = options?.isMachineScoped || metadata.isMachineScoped`. -/
def getMetadata (options : Option InstallOptions)
    (existingExtension : Option IScannedExtension) : Metadata :=
  let metadata : Metadata := ((existingExtension.bind (·.metadata)).getD {})
  { metadata with
    isMachineScoped := jsOr (options.bind (·.isMachineScoped)) metadata.isMachineScoped }

/-- `InstallExtensionTask.identifier` (line 157): for a URI source it is derived
from the manifest, for a gallery source it is the gallery identifier. -/
def taskIdentifier (manifest : IExtensionManifest) (extension : InstallSource) :
    IExtensionIdentifier :=
  match extension with
  | .uri _ => { id := getGalleryExtensionId manifest.publisher manifest.name }
  | .gallery g => g.identifier

/-- The lookup of line 163:
`userExtensions.find(e => areSameExtensions(e.identifier, this.identifier))`. -/
def findExisting (manifest : IExtensionManifest) (extension : InstallSource)
    (userExtensions : List IScannedExtension) : Option IScannedExtension :=
  userExtensions.find? (fun e => areSameExtensions e.identifier (taskIdentifier manifest extension))

/-- Result of `InstallExtensionTask.doRun` relevant to the claims: the computed
metadata together with the inferred `_operation` after the run.  (The returned
`local` extension additionally depends on the store collaborator
`addExtension`/`addExtensionFromGallery`, which is outside the embedded file.) -/
structure InstallTaskResult where
  metadata : Metadata
  operation : InstallOperation
deriving DecidableEq, Repr

/-- `InstallExtensionTask.doRun` (lines 161-187), with the scanned
user-extension list and the current time passed in explicitly.  Mirrors the
source: find an existing extension with the same identity, infer
`_operation`, build metadata via `getMetadata`, and additionally populate the
gallery-only metadata fields when the source is a gallery extension. -/
def doRun (manifest : IExtensionManifest) (extension : InstallSource)
    (options : InstallOptions) (userExtensions : List IScannedExtension)
    (now : Nat) : InstallTaskResult :=
  let existingExtension := findExisting manifest extension userExtensions
  let _operation : InstallOperation :=
    match existingExtension with
    | some _ => InstallOperation.Update
    | none => InstallOperation.Install
  let metadata := getMetadata (some options) existingExtension
  let metadata :=
    match extension with
    | .uri _ => metadata
    | .gallery g =>
      { metadata with
        id := g.identifier.uuid
        publisherDisplayName := some g.publisherDisplayName
        publisherId := some g.publisherId
        installedTimestamp := some now
        isPreReleaseVersion := some g.properties.isPreReleaseVersion
        isBuiltin := jsOr options.isBuiltin (existingExtension.map (·.isBuiltin))
        isSystem := if existingExtension.map (·.type) = some ExtensionType.System
          then some true else none
        updated := some existingExtension.isSome
        preRelease :=
          if g.properties.isPreReleaseVersion then some true
          else
            match options.installPreReleaseVersion with
            | some b => some b
            | none => metadata.preRelease }
  { metadata := metadata, operation := _operation }

/-- The `operation` getter (line 148): an explicit `options.operation` wins
over the inferred `_operation`. -/
def taskOperation (options : InstallOptions) (inferredOperation : InstallOperation) :
    InstallOperation :=
  match options.operation with
  | none => inferredOperation
  | some op => op

/-! ## webExtensionManagementService.ts : service-level functions -/

/-- The collaborators of `WebExtensionManagementService` that live outside the
embedded file.  `genericCanInstall` and `genericCompatibleVersion` are modelled
from the spec: they stand for `super.canInstall` and
`super.getCompatibleVersion` of `AbstractExtensionManagementService` (the
"generic cross-platform compatibility check", not part of the embedded
sources); `getUserConfiguredExtensionKind` stands for the
`IExtensionManifestPropertiesService` collaborator. -/
structure WebEnv where
  genericCanInstall : GalleryExtension → Bool
  genericCompatibleVersion : GalleryExtension → Bool → Bool → Option GalleryExtension
  getUserConfiguredExtensionKind : IExtensionIdentifier → Option (List String)

/-- `isConfiguredToExecuteOnWeb` (lines 94-97):
`!!configuredExtensionKind && configuredExtensionKind.includes('web')`. -/
def isConfiguredToExecuteOnWeb (env : WebEnv) (gallery : GalleryExtension) : Bool :=
  match env.getUserConfiguredExtensionKind gallery.identifier with
  | none => false
  | some kinds => kinds.contains "web"

/-- `canInstall` (lines 47-55). -/
def canInstall (env : WebEnv) (gallery : GalleryExtension) : Bool :=
  if env.genericCanInstall gallery then true
  else if isConfiguredToExecuteOnWeb env gallery then true
  else false

/-- `getCompatibleVersion` (lines 83-92). -/
def getCompatibleVersion (env : WebEnv) (extension : GalleryExtension)
    (sameVersion includePreRelease : Bool) : Option GalleryExtension :=
  match env.genericCompatibleVersion extension sameVersion includePreRelease with
  | some compatibleExtension => some compatibleExtension
  | none =>
    if isConfiguredToExecuteOnWeb env extension then some extension
    else none

/-- The slice of `ILocalExtension` needed to state the `updateMetadata` claim. -/
structure ILocalExtension where
  identifier : IExtensionIdentifier
  isMachineScoped : Bool
  preRelease : Bool
  updated : Bool
deriving DecidableEq, Repr

/-- `IGalleryMetadata` argument of `updateMetadata`. -/
structure IGalleryMetadata where
  id : String
  publisherId : String
  publisherDisplayName : String
deriving DecidableEq, Repr

/-- The installed store backing the web extension management service (the
state owned by the `webExtensionsScannerService` collaborator). -/
structure WebExtensionsStore where
  userExtensions : List IScannedExtension
deriving DecidableEq, Repr

/-- `updateMetadata` (lines 99-101): the body is `return local;` — the store is
threaded through to make the absence of reads/writes expressible. -/
def updateMetadata (store : WebExtensionsStore) (local_ : ILocalExtension)
    (_metadata : IGalleryMetadata) : ILocalExtension × WebExtensionsStore :=
  (local_, store)

/-! ## remoteAgentEnvironmentImpl.ts : data model -/

/-- An element carrying an optional declarative visibility expression
(`WhenUser` in `massageWhenConditions`).  A missing/empty `when` is `none`. -/
structure WhenUser where
  when : Option String
deriving DecidableEq, Repr

/-- The contribution points walked by `massageWhenConditions`: `menus` and
`views` are location-keyed maps of `WhenUser` arrays (`LocWhenUser`),
`keybindings` is an array of `WhenUser`. -/
structure Contributes where
  menus : List (String × List WhenUser)
  keybindings : List WhenUser
  views : List (String × List WhenUser)
deriving DecidableEq, Repr

/-- The slice of `IExtensionDescription` read by the embedded file: the
identity, the on-disk location, and the contribution points. -/
structure IExtensionDescription where
  identifier : String
  extensionLocation : String
  contributes : Option Contributes := none
deriving DecidableEq, Repr

/-- Modelled from the spec: `ExtensionIdentifier.toKey`
(`vs/platform/extensions/common/extensions`, not part of the embedded
sources): the case-insensitive identity key. -/
def toKey (id : String) : String :=
  toLowerStr id

/-! ## remoteAgentEnvironmentImpl.ts : scanExtensions merge (lines 299-329) -/

/-- `Map.set` of an insertion-ordered map represented as an association list:
an existing key keeps its position and gets the new value, a fresh key is
appended. -/
def mapSet (m : List (String × IExtensionDescription)) (k : String)
    (v : IExtensionDescription) : List (String × IExtensionDescription) :=
  match m with
  | [] => [(k, v)]
  | (k', v') :: rest => if k' = k then (k, v) :: rest else (k', v') :: mapSet rest k v

/-- One source's `forEach` loop of the merge: skip falsy entries, insert the
rest under their identity key (overwriting same-key entries). -/
def insertSource (m : List (String × IExtensionDescription))
    (xs : List (Option IExtensionDescription)) : List (String × IExtensionDescription) :=
  xs.foldl
    (fun acc x =>
      match x with
      | none => acc
      | some d => mapSet acc (toKey d.identifier) d)
    m

/-- The merge join of `scanExtensions` (lines 299-329): builtin first, then
installed (overwriting), then developed (overwriting); the result is the map's
value sequence. -/
def scanExtensionsMerge (builtinExtensions installedExtensions developedExtensions :
    List (Option IExtensionDescription)) : List IExtensionDescription :=
  (insertSource (insertSource (insertSource [] builtinExtensions) installedExtensions)
    developedExtensions).map Prod.snd

/-- The (first) non-null descriptor of a source with identity key `k`. -/
def sourceFind (xs : List (Option IExtensionDescription)) (k : String) :
    Option IExtensionDescription :=
  (xs.filterMap id).find? (fun d => toKey d.identifier == k)

/-- A source yields at most one descriptor per identity key. -/
def uniqueKeys (xs : List (Option IExtensionDescription)) : Prop :=
  ((xs.filterMap id).map (fun d => toKey d.identifier)).Nodup

instance uniqueKeysDecidable (xs : List (Option IExtensionDescription)) :
    Decidable (uniqueKeys xs) :=
  inferInstanceAs (Decidable (List.Nodup _))

/-- Stated from the spec's words, for comparison with `scanExtensionsMerge`:
"the merged result must equal the developed-origin entry if present, else the
installed-origin entry, else the builtin-origin entry". -/
def specMergePrecedence (builtinExtensions installedExtensions developedExtensions :
    List (Option IExtensionDescription)) (k : String) : Option IExtensionDescription :=
  match sourceFind developedExtensions k with
  | some e => some e
  | none =>
    match sourceFind installedExtensions k with
    | some e => some e
    | none => sourceFind builtinExtensions k

/-- How many of the three sources contain a descriptor with identity key `k`. -/
def sourcesContaining (builtinExtensions installedExtensions developedExtensions :
    List (Option IExtensionDescription)) (k : String) : Nat :=
  (if (sourceFind builtinExtensions k).isSome then 1 else 0) +
  (if (sourceFind installedExtensions k).isSome then 1 else 0) +
  (if (sourceFind developedExtensions k).isSome then 1 else 0)

/-- Lookup in the association-list map (proof helper). -/
def alFind (m : List (String × IExtensionDescription)) (k : String) :
    Option IExtensionDescription :=
  match m with
  | [] => none
  | (k', v) :: rest => if k' = k then some v else alFind rest k

/-- The keys of the association-list map, in order (proof helper). -/
def alKeys (m : List (String × IExtensionDescription)) : List String :=
  m.map Prod.fst

/-- Well-formedness of the merge map: every entry is stored under the identity
key of its value, and keys are unique (proof helper). -/
def alWf (m : List (String × IExtensionDescription)) : Prop :=
  (∀ p ∈ m, p.1 = toKey p.2.identifier) ∧ (alKeys m).Nodup

/-! ## remoteAgentEnvironmentImpl.ts : when-clause rewriter (lines 167-264) -/

/-- The characters of the replacement scheme token `vscode-remote`. -/
def vscodeRemote : List Char := "vscode-remote".data

/-- Whether four characters spell the scheme token `file`. -/
def isFileAt (c1 c2 c3 c4 : Char) : Bool :=
  c1 == 'f' && c2 == 'i' && c3 == 'l' && c4 == 'e'

/-- `value.replace(/file/g, 'vscode-remote')` on a character list: scan left to
right, replacing non-overlapping occurrences of `file` (line 177). -/
def replaceFile : List Char → List Char
  | c1 :: c2 :: c3 :: c4 :: rest =>
    if isFileAt c1 c2 c3 c4 then vscodeRemote ++ replaceFile rest
    else c1 :: replaceFile (c2 :: c3 :: c4 :: rest)
  | c :: cs => c :: replaceFile cs
  | [] => []

/-- Whether `file` occurs as a substring. -/
def containsFile : List Char → Bool
  | c1 :: c2 :: c3 :: c4 :: rest => isFileAt c1 c2 c3 c4 || containsFile (c2 :: c3 :: c4 :: rest)
  | _ => false

/-- `_mapResourceSchemeValue` (lines 175-178):
`value.replace(/file/g, 'vscode-remote')`.  The `isRegex` argument is unused,
as in the source. -/
def _mapResourceSchemeValue (value : String) (_isRegex : Bool) : String :=
  ⟨replaceFile value.data⟩

/-- A context-key value as used in equals/not-equals expressions (`any` in the
source; the mapper special-cases string values only). -/
inductive CKValue where
  | vstr (s : String)
  | vbool (b : Bool)
deriving DecidableEq, Repr

/-- A JS `RegExp`: its source plus the `g`/`i`/`m` flags read by
`_mapResourceRegExpValue`. -/
structure CKRegex where
  source : String
  flagG : Bool
  flagI : Bool
  flagM : Bool
deriving DecidableEq, Repr

/-- Modelled from the spec: the structured boolean tree of a when-expression
(`ContextKeyExpression` of `vs/platform/contextkey/common/contextkey`, not
part of the embedded sources): "a recursive sum type
(`Defined | Not | Equals | NotEquals | Regex | In | And | Or`)".  And/Or are
modelled as binary nodes. -/
inductive ContextKeyExpression where
  | defined (key : String)
  | notExpr (key : String)
  | equals (key : String) (value : CKValue)
  | notEquals (key : String) (value : CKValue)
  | regex (key : String) (value : Option CKRegex)
  | inExpr (key : String) (valueKey : String)
  | andExpr (a b : ContextKeyExpression)
  | orExpr (a b : ContextKeyExpression)
deriving DecidableEq, Repr

/-- `_mapResourceRegExpValue` (lines 180-186): map the regex source, keep the
flags. -/
def _mapResourceRegExpValue (value : CKRegex) : CKRegex :=
  { source := _mapResourceSchemeValue value.source true
    flagG := value.flagG, flagI := value.flagI, flagM := value.flagM }

/-- `expr.map(_exprKeyMapper)` (lines 188-219, with the structural `map` of
`ContextKeyExpression` modelled from the spec as "a visitor function ...
applied structurally"): rewrite the operand of every `resourceScheme`
equals/not-equals/regex predicate; all other leaves are rebuilt unchanged. -/
def mapExpr : ContextKeyExpression → ContextKeyExpression
  | .defined key => .defined key
  | .notExpr key => .notExpr key
  | .equals key value =>
    if key = "resourceScheme" then
      match value with
      | .vstr s => .equals key (.vstr (_mapResourceSchemeValue s false))
      | v => .equals key v
    else .equals key value
  | .notEquals key value =>
    if key = "resourceScheme" then
      match value with
      | .vstr s => .notEquals key (.vstr (_mapResourceSchemeValue s false))
      | v => .notEquals key v
    else .notEquals key value
  | .regex key value =>
    if key = "resourceScheme" then
      match value with
      | some r => .regex key (some (_mapResourceRegExpValue r))
      | none => .regex key none
    else .regex key value
  | .inExpr key valueKey => .inExpr key valueKey
  | .andExpr a b => .andExpr (mapExpr a) (mapExpr b)
  | .orExpr a b => .orExpr (mapExpr a) (mapExpr b)

/-- Escape `\` and `;` in a serialized payload (part of the spec-modelled
serialization; see `serialize`). -/
def escapeChars : List Char → List Char
  | [] => []
  | c :: cs => if c = '\\' || c = ';' then '\\' :: c :: escapeChars cs else c :: escapeChars cs

/-- A `;`-terminated escaped payload string. -/
def encStr (s : String) : List Char := escapeChars s.data ++ [';']

def encBool (b : Bool) : List Char := if b then ['t'] else ['f']

def encVal : CKValue → List Char
  | .vstr s => 's' :: encStr s
  | .vbool b => 'b' :: encBool b

def encRegex : Option CKRegex → List Char
  | none => ['n']
  | some r => 'r' :: (encStr r.source ++ encBool r.flagG ++ encBool r.flagI ++ encBool r.flagM)

/-- The rendering underlying the spec-modelled `serialize`: a tag character
followed by the encoded payloads (children of and/or follow directly, as the
arity is fixed). -/
def encExpr : ContextKeyExpression → List Char
  | .defined key => 'd' :: encStr key
  | .notExpr key => 'n' :: encStr key
  | .equals key value => 'e' :: (encStr key ++ encVal value)
  | .notEquals key value => 'u' :: (encStr key ++ encVal value)
  | .regex key value => 'x' :: (encStr key ++ encRegex value)
  | .inExpr key valueKey => 'i' :: (encStr key ++ encStr valueKey)
  | .andExpr a b => 'a' :: (encExpr a ++ encExpr b)
  | .orExpr a b => 'o' :: (encExpr a ++ encExpr b)

/-- Modelled from the spec: `ContextKeyExpression.serialize`
(`vs/platform/contextkey`, not part of the embedded sources).  The spec fixes
no concrete syntax but requires parse/serialize to be "pure round-trip
functions", so serialization is modelled as an injective rendering with an
executable inverse (`deserialize`). -/
def serialize (e : ContextKeyExpression) : String := ⟨encExpr e⟩

def decStr : List Char → Option (List Char × List Char)
  | [] => none
  | c :: rest =>
    if c = '\\' then
      match rest with
      | [] => none
      | c2 :: rest2 => (decStr rest2).map (fun p => (c2 :: p.1, p.2))
    else if c = ';' then some ([], rest)
    else (decStr rest).map (fun p => (c :: p.1, p.2))

def decBool : List Char → Option (Bool × List Char)
  | c :: rest =>
    if c = 't' then some (true, rest) else if c = 'f' then some (false, rest) else none
  | [] => none

def decVal : List Char → Option (CKValue × List Char)
  | c :: rest =>
    if c = 's' then (decStr rest).map (fun p => (CKValue.vstr ⟨p.1⟩, p.2))
    else if c = 'b' then (decBool rest).map (fun p => (CKValue.vbool p.1, p.2))
    else none
  | [] => none

def decRegex : List Char → Option (Option CKRegex × List Char)
  | c :: rest =>
    if c = 'n' then some (none, rest)
    else if c = 'r' then
      (decStr rest).bind (fun p =>
        (decBool p.2).bind (fun pg =>
          (decBool pg.2).bind (fun pi =>
            (decBool pi.2).map (fun pm =>
              (some { source := ⟨p.1⟩, flagG := pg.1, flagI := pi.1, flagM := pm.1 }, pm.2)))))
    else none
  | [] => none

/-- The fuelled decoder for `encExpr` (the fuel only bounds nesting depth). -/
def decExpr : Nat → List Char → Option (ContextKeyExpression × List Char)
  | 0, _ => none
  | _ + 1, [] => none
  | fuel + 1, c :: rest =>
    if c = 'd' then (decStr rest).map (fun p => (ContextKeyExpression.defined ⟨p.1⟩, p.2))
    else if c = 'n' then
      (decStr rest).map (fun p => (ContextKeyExpression.notExpr ⟨p.1⟩, p.2))
    else if c = 'e' then
      (decStr rest).bind (fun p =>
        (decVal p.2).map (fun q => (ContextKeyExpression.equals ⟨p.1⟩ q.1, q.2)))
    else if c = 'u' then
      (decStr rest).bind (fun p =>
        (decVal p.2).map (fun q => (ContextKeyExpression.notEquals ⟨p.1⟩ q.1, q.2)))
    else if c = 'x' then
      (decStr rest).bind (fun p =>
        (decRegex p.2).map (fun q => (ContextKeyExpression.regex ⟨p.1⟩ q.1, q.2)))
    else if c = 'i' then
      (decStr rest).bind (fun p =>
        (decStr p.2).map (fun q => (ContextKeyExpression.inExpr ⟨p.1⟩ ⟨q.1⟩, q.2)))
    else if c = 'a' then
      (decExpr fuel rest).bind (fun p =>
        (decExpr fuel p.2).map (fun q => (ContextKeyExpression.andExpr p.1 q.1, q.2)))
    else if c = 'o' then
      (decExpr fuel rest).bind (fun p =>
        (decExpr fuel p.2).map (fun q => (ContextKeyExpression.orExpr p.1 q.1, q.2)))
    else none

/-- Modelled from the spec: `ContextKeyExpr.deserialize`
(`vs/platform/contextkey`, not part of the embedded sources), the executable
inverse of `serialize`; malformed inputs yield `none`. -/
def deserialize (s : String) : Option ContextKeyExpression :=
  (decExpr (s.data.length + 1) s.data).bind (fun p => if p.2 = [] then some p.1 else none)

/-- Structural nesting size used to bound the decoder fuel. -/
def exprDepth : ContextKeyExpression → Nat
  | .andExpr a b => exprDepth a + exprDepth b + 1
  | .orExpr a b => exprDepth a + exprDepth b + 1
  | _ => 1

/-- The characters of the predicate key `resourceScheme`. -/
def resourceSchemeChars : List Char := "resourceScheme".data

/-- Whether a list starts with the given prefix. -/
def startsWithL : List Char → List Char → Bool
  | [], _ => true
  | _ :: _, [] => false
  | p :: ps, c :: cs => p == c && startsWithL ps cs

/-- JS `/needle/.test(hay)`: substring containment. -/
def containsSubstr (needle : List Char) : List Char → Bool
  | [] => startsWithL needle []
  | c :: cs => startsWithL needle (c :: cs) || containsSubstr needle cs

/-- `_massageWhenUser` (lines 221-233): skip when there is no `when` (or, in
JS, an empty one — which the substring pre-check also skips), when the cheap
`resourceScheme` substring pre-check fails, or when the expression fails to
deserialize; otherwise map the expression and re-serialize. -/
def _massageWhenUser (element : WhenUser) : WhenUser :=
  match element.when with
  | none => element
  | some w =>
    if containsSubstr resourceSchemeChars w.data = false then element
    else
      match deserialize w with
      | none => element
      | some expr => { element with when := some (serialize (mapExpr expr)) }

/-- `_massageWhenUserArr` (lines 235-243) on an array of entries (a single
entry is handled by `_massageWhenUser` directly). -/
def _massageWhenUserArr (elements : List WhenUser) : List WhenUser :=
  elements.map _massageWhenUser

/-- `_massageLocWhenUser` (lines 245-249): massage every entry of every
location. -/
def _massageLocWhenUser (target : List (String × List WhenUser)) :
    List (String × List WhenUser) :=
  target.map (fun p => (p.1, _massageWhenUserArr p.2))

/-- `massageWhenConditions` (lines 167-264) as a pure transform (the source
mutates the descriptors in place): massage the menus, keybindings and views
contribution points of every descriptor that has contributions. -/
def massageWhenConditions (extensions : List IExtensionDescription) :
    List IExtensionDescription :=
  extensions.map (fun extension =>
    match extension.contributes with
    | none => extension
    | some contributes =>
      { extension with
        contributes :=
          some
            { menus := _massageLocWhenUser contributes.menus
              keybindings := _massageWhenUserArr contributes.keybindings
              views := _massageLocWhenUser contributes.views } })

/-! ## remoteAgentEnvironmentImpl.ts : getEnvironmentData (lines 266-280) -/

/-- The slice of `INativeEnvironmentService` read by `getEnvironmentData`. -/
structure NativeEnvironmentService where
  appRoot : String
  logsPath : String
  extensionsPath : String
  userHome : String
deriving DecidableEq, Repr

/-- `path.join` for the single fresh-segment use of the embedded file. -/
def joinPath (a b : String) : String := a ++ "/" ++ b

/-- The slice of `IRemoteAgentEnvironmentDTO` produced by `getEnvironmentData`
that the claims are about. -/
structure RemoteAgentEnvironmentDTO where
  connectionToken : String
  appRoot : String
  logsPath : String
  extensionsPath : String
  extensionHostLogsPath : String
  userHome : String
deriving DecidableEq, Repr

/-- `getEnvironmentData` (lines 266-280): the static `_namePool` counter is
threaded explicitly (it is the only mutated state); the fresh extension-host
log path is `join(logsPath, ` ++ "`exthost${_namePool++}`" ++ `)`. -/
def getEnvironmentData (env : NativeEnvironmentService) (connectionToken : String)
    (namePool : Nat) : RemoteAgentEnvironmentDTO × Nat :=
  ({ connectionToken := connectionToken
     appRoot := env.appRoot
     logsPath := env.logsPath
     extensionsPath := env.extensionsPath
     extensionHostLogsPath := joinPath env.logsPath ("exthost" ++ Nat.repr namePool)
     userHome := env.userHome },
   namePool + 1)

/-- The decimal digit characters of `n`, most significant first (proof helper
characterizing `Nat.repr`). -/
def decChars (n : Nat) : List Char :=
  if n < 10 then [Nat.digitChar n]
  else decChars (n / 10) ++ [Nat.digitChar (n % 10)]
termination_by n
decreasing_by exact Nat.div_lt_self (by omega) (by omega)

/-- Fold a digit-character list back into the number (proof helper). -/
def digitsVal (l : List Char) : Nat :=
  l.foldl (fun acc c => acc * 10 + (c.toNat - 48)) 0

/-! ## Helper lemmas -/

theorem jsOr_of_ne_some_true (a b : Option Bool) (h : a ≠ some true) : jsOr a b = b := by
  unfold jsOr
  match a with
  | none => rfl
  | some false => rfl
  | some true => exact absurd rfl h

theorem jsOr_some_true_left (b : Option Bool) : jsOr (some true) b = some true := rfl

theorem jsOr_some_true_right (a : Option Bool) : jsOr a (some true) = some true := by
  unfold jsOr
  match a with
  | none => rfl
  | some false => rfl
  | some true => rfl

/-! ## Merge engine lemmas -/

theorem alKeys_nil : alKeys [] = [] := rfl

theorem alKeys_cons (a : String × IExtensionDescription)
    (m : List (String × IExtensionDescription)) : alKeys (a :: m) = a.1 :: alKeys m := rfl

theorem mapSet_nil (k : String) (v : IExtensionDescription) : mapSet [] k v = [(k, v)] := rfl

theorem mapSet_cons (k' : String) (v' : IExtensionDescription)
    (m : List (String × IExtensionDescription)) (k : String) (v : IExtensionDescription) :
    mapSet ((k', v') :: m) k v =
      if k' = k then (k, v) :: m else (k', v') :: mapSet m k v := rfl

theorem alFind_nil (k : String) : alFind [] k = none := rfl

theorem alFind_cons (k' : String) (v : IExtensionDescription)
    (m : List (String × IExtensionDescription)) (k : String) :
    alFind ((k', v) :: m) k = if k' = k then some v else alFind m k := rfl

theorem alFind_mapSet_self (m : List (String × IExtensionDescription)) (k : String)
    (v : IExtensionDescription) : alFind (mapSet m k v) k = some v := by
  induction m with
  | nil => simp [mapSet_nil, alFind_cons, alFind_nil]
  | cons p rest ih =>
    obtain ⟨k', v'⟩ := p
    by_cases h : k' = k
    · rw [mapSet_cons, if_pos h, alFind_cons, if_pos rfl]
    · rw [mapSet_cons, if_neg h, alFind_cons, if_neg h, ih]

theorem alFind_mapSet_ne (m : List (String × IExtensionDescription)) (k k' : String)
    (v : IExtensionDescription) (h : k' ≠ k) :
    alFind (mapSet m k v) k' = alFind m k' := by
  induction m with
  | nil => rw [mapSet_nil, alFind_cons, if_neg (Ne.symm h), alFind_nil]
  | cons p rest ih =>
    obtain ⟨k'', v''⟩ := p
    by_cases hk : k'' = k
    · subst hk
      rw [mapSet_cons, if_pos rfl, alFind_cons, if_neg (Ne.symm h), alFind_cons,
        if_neg (Ne.symm h)]
    · rw [mapSet_cons, if_neg hk, alFind_cons, alFind_cons, ih]

theorem alFind_eq_none_of_not_mem (m : List (String × IExtensionDescription)) (k : String)
    (h : k ∉ alKeys m) : alFind m k = none := by
  induction m with
  | nil => rfl
  | cons p rest ih =>
    obtain ⟨k', v⟩ := p
    rw [alKeys_cons, List.mem_cons] at h
    push_neg at h
    rw [alFind_cons, if_neg (Ne.symm h.1), ih h.2]

theorem alKeys_mapSet_mem (m : List (String × IExtensionDescription)) (k : String)
    (v : IExtensionDescription) (h : k ∈ alKeys m) :
    alKeys (mapSet m k v) = alKeys m := by
  induction m with
  | nil => simp [alKeys_nil] at h
  | cons p rest ih =>
    obtain ⟨k', v'⟩ := p
    by_cases hk : k' = k
    · rw [mapSet_cons, if_pos hk, alKeys_cons, alKeys_cons, hk]
    · have hmem : k ∈ alKeys rest := by
        rw [alKeys_cons, List.mem_cons] at h
        exact h.resolve_left (fun hh => hk hh.symm)
      rw [mapSet_cons, if_neg hk, alKeys_cons, alKeys_cons, ih hmem]

theorem alKeys_mapSet_not_mem (m : List (String × IExtensionDescription)) (k : String)
    (v : IExtensionDescription) (h : k ∉ alKeys m) :
    alKeys (mapSet m k v) = alKeys m ++ [k] := by
  induction m with
  | nil => simp [mapSet_nil, alKeys_cons, alKeys_nil]
  | cons p rest ih =>
    obtain ⟨k', v'⟩ := p
    rw [alKeys_cons, List.mem_cons] at h
    push_neg at h
    rw [mapSet_cons, if_neg (fun hh => h.1 hh.symm), alKeys_cons, alKeys_cons, ih h.2,
      List.cons_append]

theorem alWf_inv_mapSet (m : List (String × IExtensionDescription))
    (v : IExtensionDescription) (hinv : ∀ p ∈ m, p.1 = toKey p.2.identifier) :
    ∀ p ∈ mapSet m (toKey v.identifier) v, p.1 = toKey p.2.identifier := by
  induction m with
  | nil =>
    intro q hq
    rw [mapSet_nil] at hq
    rw [List.mem_singleton.mp hq]
  | cons p rest ih =>
    obtain ⟨k', v'⟩ := p
    intro q hq
    by_cases hk : k' = toKey v.identifier
    · rw [mapSet_cons, if_pos hk] at hq
      rcases List.mem_cons.mp hq with rfl | hq
      · rfl
      · exact hinv q (List.mem_cons_of_mem _ hq)
    · rw [mapSet_cons, if_neg hk] at hq
      rcases List.mem_cons.mp hq with rfl | hq
      · exact hinv _ (List.mem_cons_self _ _)
      · exact ih (fun r hr => hinv r (List.mem_cons_of_mem _ hr)) q hq

theorem alWf_mapSet (m : List (String × IExtensionDescription)) (v : IExtensionDescription)
    (hwf : alWf m) : alWf (mapSet m (toKey v.identifier) v) := by
  obtain ⟨hinv, hnd⟩ := hwf
  refine ⟨alWf_inv_mapSet m v hinv, ?_⟩
  by_cases hmem : toKey v.identifier ∈ alKeys m
  · rw [alKeys_mapSet_mem m _ v hmem]
    exact hnd
  · rw [alKeys_mapSet_not_mem m _ v hmem]
    simp [List.nodup_append, hnd, hmem]

theorem insertSource_nil (m : List (String × IExtensionDescription)) :
    insertSource m [] = m := rfl

theorem insertSource_cons_none (m : List (String × IExtensionDescription))
    (xs : List (Option IExtensionDescription)) :
    insertSource m (none :: xs) = insertSource m xs := rfl

theorem insertSource_cons_some (m : List (String × IExtensionDescription))
    (d : IExtensionDescription) (xs : List (Option IExtensionDescription)) :
    insertSource m (some d :: xs) = insertSource (mapSet m (toKey d.identifier) d) xs := rfl

theorem sourceFind_cons_none (xs : List (Option IExtensionDescription)) (k : String) :
    sourceFind (none :: xs) k = sourceFind xs k := rfl

theorem uniqueKeys_cons_none (xs : List (Option IExtensionDescription)) :
    uniqueKeys (none :: xs) ↔ uniqueKeys xs := Iff.rfl

theorem alWf_insertSource (xs : List (Option IExtensionDescription))
    (m : List (String × IExtensionDescription)) (hwf : alWf m) :
    alWf (insertSource m xs) := by
  induction xs generalizing m with
  | nil => exact hwf
  | cons x xs ih =>
    cases x with
    | none => exact ih m hwf
    | some d => exact ih _ (alWf_mapSet m d hwf)

theorem sourceFind_cons_some (d : IExtensionDescription)
    (xs : List (Option IExtensionDescription)) (k : String) :
    sourceFind (some d :: xs) k =
      if toKey d.identifier == k then some d else sourceFind xs k := by
  by_cases h : toKey d.identifier == k <;> simp [sourceFind, List.find?, h]

theorem sourceFind_eq_none_of_not_mem (xs : List (Option IExtensionDescription)) (k : String)
    (h : k ∉ (xs.filterMap id).map (fun d => toKey d.identifier)) :
    sourceFind xs k = none := by
  apply List.find?_eq_none.mpr
  intro d hd
  simp only [beq_iff_eq]
  intro he
  exact h (List.mem_map.mpr ⟨d, hd, he⟩)

theorem uniqueKeys_cons_some (d : IExtensionDescription)
    (xs : List (Option IExtensionDescription)) (h : uniqueKeys (some d :: xs)) :
    uniqueKeys xs ∧ toKey d.identifier ∉ (xs.filterMap id).map (fun d => toKey d.identifier) := by
  simp only [uniqueKeys, List.filterMap_cons, id, List.map_cons, List.nodup_cons] at h
  exact ⟨h.2, h.1⟩

theorem alFind_insertSource_of_none (xs : List (Option IExtensionDescription)) (k : String)
    (m : List (String × IExtensionDescription)) (h : sourceFind xs k = none) :
    alFind (insertSource m xs) k = alFind m k := by
  induction xs generalizing m with
  | nil => rfl
  | cons x xs ih =>
    cases x with
    | none =>
      rw [insertSource_cons_none]
      exact ih m (by rwa [sourceFind_cons_none] at h)
    | some d =>
      rw [sourceFind_cons_some] at h
      by_cases hd : toKey d.identifier == k
      · rw [if_pos hd] at h
        exact absurd h (by simp)
      · rw [if_neg hd] at h
        rw [insertSource_cons_some, ih _ h,
          alFind_mapSet_ne _ _ _ _ (fun hh => by simp [hh] at hd)]

theorem alFind_insertSource_of_some (xs : List (Option IExtensionDescription)) (k : String)
    (e : IExtensionDescription) (m : List (String × IExtensionDescription))
    (hu : uniqueKeys xs) (h : sourceFind xs k = some e) :
    alFind (insertSource m xs) k = some e := by
  induction xs generalizing m with
  | nil => simp [sourceFind] at h
  | cons x xs ih =>
    cases x with
    | none =>
      rw [insertSource_cons_none]
      exact ih m ((uniqueKeys_cons_none xs).mp hu) (by rwa [sourceFind_cons_none] at h)
    | some d =>
      obtain ⟨hu', hnmem⟩ := uniqueKeys_cons_some d xs hu
      rw [sourceFind_cons_some] at h
      by_cases hd : toKey d.identifier == k
      · rw [if_pos hd] at h
        obtain rfl : d = e := by injection h
        have hk : toKey d.identifier = k := by simpa using hd
        rw [insertSource_cons_some,
          alFind_insertSource_of_none xs k _ (sourceFind_eq_none_of_not_mem xs k (hk ▸ hnmem)),
          ← hk, alFind_mapSet_self]
      · rw [if_neg hd] at h
        rw [insertSource_cons_some]
        exact ih _ hu' h

theorem filter_map_snd (m : List (String × IExtensionDescription)) (k : String)
    (hwf : alWf m) :
    (m.map Prod.snd).filter (fun e => toKey e.identifier == k) = (alFind m k).toList := by
  induction m with
  | nil => rfl
  | cons p rest ih =>
    obtain ⟨k', v⟩ := p
    obtain ⟨hinv, hnd⟩ := hwf
    have hk' : k' = toKey v.identifier := hinv (k', v) (List.mem_cons_self _ _)
    have hnotin : k' ∉ alKeys rest := by
      simpa [alKeys] using (List.nodup_cons.mp hnd).1
    have hrest : alWf rest :=
      ⟨fun q hq => hinv q (List.mem_cons_of_mem _ hq), (List.nodup_cons.mp hnd).2⟩
    by_cases h : toKey v.identifier == k
    · have hkk : k' = k := by rw [hk']; simpa using h
      have : alFind rest k = none := alFind_eq_none_of_not_mem rest k (hkk ▸ hnotin)
      simp [List.filter, alFind, h, hkk, ih hrest, this]
    · have hkk : ¬ k' = k := by rw [hk']; simpa using h
      simp [List.filter, alFind, h, hkk, ih hrest]

/-! ## Claim theorems: merge engine -/

/-- C1: when each source yields at most one descriptor per identity key, any
identity present in more than one source has exactly one merged entry, equal to
the developed entry if present, else the installed entry, else the builtin
entry. -/
theorem scanExtensions_merge_precedence
    (builtinExtensions installedExtensions developedExtensions :
      List (Option IExtensionDescription)) (k : String)
    (hb : uniqueKeys builtinExtensions) (hi : uniqueKeys installedExtensions)
    (hd : uniqueKeys developedExtensions)
    (hmulti : 2 ≤ sourcesContaining builtinExtensions installedExtensions developedExtensions k) :
    (specMergePrecedence builtinExtensions installedExtensions developedExtensions k).isSome ∧
    (scanExtensionsMerge builtinExtensions installedExtensions developedExtensions).filter
        (fun e => toKey e.identifier == k) =
      (specMergePrecedence builtinExtensions installedExtensions developedExtensions
        k).toList := by
  have hwf : alWf (insertSource (insertSource (insertSource [] builtinExtensions)
      installedExtensions) developedExtensions) :=
    alWf_insertSource _ _ (alWf_insertSource _ _ (alWf_insertSource _ _
      ⟨by simp, by simp [alKeys]⟩))
  have hfind : alFind (insertSource (insertSource (insertSource [] builtinExtensions)
      installedExtensions) developedExtensions) k =
      specMergePrecedence builtinExtensions installedExtensions developedExtensions k := by
    unfold specMergePrecedence
    cases hdk : sourceFind developedExtensions k with
    | some e => rw [alFind_insertSource_of_some _ _ _ _ hd hdk]
    | none =>
      rw [alFind_insertSource_of_none _ _ _ hdk]
      cases hik : sourceFind installedExtensions k with
      | some e => rw [alFind_insertSource_of_some _ _ _ _ hi hik]
      | none =>
        rw [alFind_insertSource_of_none _ _ _ hik]
        cases hbk : sourceFind builtinExtensions k with
        | some e => rw [alFind_insertSource_of_some _ _ _ _ hb hbk]
        | none => rw [alFind_insertSource_of_none _ _ _ hbk]; rfl
  constructor
  · unfold specMergePrecedence
    cases hdk : sourceFind developedExtensions k with
    | some e => rfl
    | none =>
      cases hik : sourceFind installedExtensions k with
      | some e => rfl
      | none =>
        cases hbk : sourceFind builtinExtensions k with
        | some e => rfl
        | none => simp [sourcesContaining, hdk, hik, hbk] at hmulti
  · unfold scanExtensionsMerge
    rw [filter_map_snd _ _ hwf, hfind]

/-- C1 witness: the spec's Scenario A — the same identity in builtin and
installed merges to the single installed entry. -/
theorem scanExtensions_merge_precedence_witness :
    (scanExtensionsMerge
        [some { identifier := "Acme.Lint", extensionLocation := "/sys/acme.lint" }]
        [some { identifier := "acme.lint", extensionLocation := "/user/acme.lint" }]
        []).filter (fun e => toKey e.identifier == "acme.lint") =
      [{ identifier := "acme.lint", extensionLocation := "/user/acme.lint" }] := by
  have h := scanExtensions_merge_precedence
    [some { identifier := "Acme.Lint", extensionLocation := "/sys/acme.lint" }]
    [some { identifier := "acme.lint", extensionLocation := "/user/acme.lint" }]
    [] "acme.lint" (by decide) (by decide) (by decide) (by decide)
  rw [h.2]
  decide

/-! ## Claim theorems: install task engine -/

/-- C2 counterexample: a direct-location (`URI`) install over an existing
extension infers operation kind `Update`, but the resulting metadata's
`updated` flag is not `true` (the gallery-only metadata block of `doRun` is
skipped, so `updated` is merely carried over from the existing metadata) —
refuting "the resulting metadata's `updated` flag is true if and only if the
operation kind is Update" for this run. -/
theorem installTask_updated_iff_counterexample :
    (doRun { name := "a", publisher := "pub" } (InstallSource.uri "loc") {}
      [{ identifier := { id := "pub.a" }, type := ExtensionType.User,
         isBuiltin := false, metadata := some {} }] 0).operation
      = InstallOperation.Update ∧
    taskOperation {}
      (doRun { name := "a", publisher := "pub" } (InstallSource.uri "loc") {}
        [{ identifier := { id := "pub.a" }, type := ExtensionType.User,
           isBuiltin := false, metadata := some {} }] 0).operation
      = InstallOperation.Update ∧
    ¬ (doRun { name := "a", publisher := "pub" } (InstallSource.uri "loc") {}
      [{ identifier := { id := "pub.a" }, type := ExtensionType.User,
         isBuiltin := false, metadata := some {} }] 0).metadata.updated = some true := by
  refine ⟨rfl, rfl, ?_⟩
  decide

/-- C2 (amended): the inferred operation kind is `Install` iff no extension
with the same identity exists in the scanned user-installed set at task start,
and `Update` otherwise; for gallery installs the resulting metadata's `updated`
flag is true iff an existing extension was found (i.e. iff the inferred kind is
`Update`); an explicit caller-supplied operation kind in the options overrides
the inferred kind as the task's exposed operation. -/
theorem installTask_operation_inference (manifest : IExtensionManifest)
    (extension : InstallSource) (options : InstallOptions)
    (userExtensions : List IScannedExtension) (now : Nat) :
    (findExisting manifest extension userExtensions = none →
      (doRun manifest extension options userExtensions now).operation
        = InstallOperation.Install) ∧
    (findExisting manifest extension userExtensions ≠ none →
      (doRun manifest extension options userExtensions now).operation
        = InstallOperation.Update) ∧
    (∀ g, extension = InstallSource.gallery g →
      ((doRun manifest extension options userExtensions now).metadata.updated = some true ↔
        findExisting manifest extension userExtensions ≠ none)) ∧
    (∀ op, options.operation = some op →
      taskOperation options
        (doRun manifest extension options userExtensions now).operation = op) := by
  refine ⟨?_, ?_, ?_, ?_⟩
  · intro h
    simp [doRun, h]
  · intro h
    match hfind : findExisting manifest extension userExtensions with
    | none => exact absurd hfind h
    | some ex => simp [doRun, hfind]
  · intro g hg
    subst hg
    match hfind : findExisting manifest (InstallSource.gallery g) userExtensions with
    | none => simp [doRun, hfind]
    | some ex => simp [doRun, hfind]
  · intro op hop
    simp [taskOperation, hop]

/-- C2 witness: instantiating the amended theorem at a concrete gallery install
over an existing extension with an explicit `Install` operation option. -/
theorem installTask_operation_inference_witness :
    taskOperation { operation := some InstallOperation.Install }
      (doRun { name := "b", publisher := "pub" }
        (InstallSource.gallery
          { identifier := { id := "pub.b", uuid := some "U1" }, publisherId := "pid",
            publisherDisplayName := "P", properties := { isPreReleaseVersion := false } })
        { operation := some InstallOperation.Install }
        [{ identifier := { id := "pub.b" }, type := ExtensionType.User,
           isBuiltin := false, metadata := some {} }] 7).operation
      = InstallOperation.Install ∧
    (doRun { name := "b", publisher := "pub" }
      (InstallSource.gallery
        { identifier := { id := "pub.b", uuid := some "U1" }, publisherId := "pid",
          publisherDisplayName := "P", properties := { isPreReleaseVersion := false } })
      { operation := some InstallOperation.Install }
      [{ identifier := { id := "pub.b" }, type := ExtensionType.User,
         isBuiltin := false, metadata := some {} }] 7).metadata.updated = some true := by
  refine ⟨(installTask_operation_inference _ _ _ _ _).2.2.2 _ rfl, ?_⟩
  exact ((installTask_operation_inference _ _ _ _ _).2.2.1 _ rfl).mpr (by decide)

/-- C3 counterexample: a gallery install whose fetched version is itself a
pre-release (`properties.isPreReleaseVersion = true`) over an existing
extension with `preRelease = true` and explicit
`installPreReleaseVersion = false` still yields `preRelease = true`, refuting
"the resulting metadata has preRelease = false" as stated. -/
theorem installTask_preRelease_optOut_counterexample :
    (doRun { name := "b", publisher := "pub" }
      (InstallSource.gallery
        { identifier := { id := "pub.b", uuid := some "U1" }, publisherId := "pid",
          publisherDisplayName := "P", properties := { isPreReleaseVersion := true } })
      { installPreReleaseVersion := some false }
      [{ identifier := { id := "pub.b" }, type := ExtensionType.User,
         isBuiltin := false, metadata := some { preRelease := some true } }]
      0).metadata.preRelease = some true ∧
    (doRun { name := "b", publisher := "pub" }
      (InstallSource.gallery
        { identifier := { id := "pub.b", uuid := some "U1" }, publisherId := "pid",
          publisherDisplayName := "P", properties := { isPreReleaseVersion := true } })
      { installPreReleaseVersion := some false }
      [{ identifier := { id := "pub.b" }, type := ExtensionType.User,
         isBuiltin := false, metadata := some { preRelease := some true } }]
      0).metadata.preRelease ≠ some false := by
  constructor
  · decide
  · decide

/-- C3 (amended): for a gallery install over an existing extension with
`preRelease = true` and explicit `installPreReleaseVersion = false`, provided
the fetched gallery version is not itself a pre-release version, the resulting
metadata has `preRelease = false` and the inferred operation kind is `Update`. -/
theorem installTask_explicit_preRelease_optOut (manifest : IExtensionManifest)
    (g : GalleryExtension) (options : InstallOptions)
    (userExtensions : List IScannedExtension) (now : Nat) (ex : IScannedExtension)
    (hnotpre : g.properties.isPreReleaseVersion = false)
    (hfound : findExisting manifest (InstallSource.gallery g) userExtensions = some ex)
    (_hexmeta : ((ex.metadata).getD {}).preRelease = some true)
    (hopt : options.installPreReleaseVersion = some false) :
    (doRun manifest (InstallSource.gallery g) options userExtensions now).metadata.preRelease
      = some false ∧
    (doRun manifest (InstallSource.gallery g) options userExtensions now).operation
      = InstallOperation.Update := by
  constructor
  · simp [doRun, hfound, hnotpre, hopt]
  · simp [doRun, hfound]

/-- C3 witness: the amended theorem applied at a concrete input. -/
theorem installTask_explicit_preRelease_optOut_witness :
    (doRun { name := "b", publisher := "pub" }
      (InstallSource.gallery
        { identifier := { id := "pub.b", uuid := some "U1" }, publisherId := "pid",
          publisherDisplayName := "P", properties := { isPreReleaseVersion := false } })
      { installPreReleaseVersion := some false }
      [{ identifier := { id := "pub.b" }, type := ExtensionType.User,
         isBuiltin := false, metadata := some { preRelease := some true } }]
      0).metadata.preRelease = some false := by
  exact (installTask_explicit_preRelease_optOut _ _ _ _ 0
    { identifier := { id := "pub.b" }, type := ExtensionType.User, isBuiltin := false,
      metadata := some { preRelease := some true } }
    rfl (by decide) (by decide) rfl).1

/-- C4: if an extension with the same identity exists with metadata
`preRelease = true` and the options carry no explicit boolean
`installPreReleaseVersion`, the resulting metadata's `preRelease` stays `true`
(for both direct-location and gallery installs). -/
theorem installTask_sticky_preRelease (manifest : IExtensionManifest)
    (extension : InstallSource) (options : InstallOptions)
    (userExtensions : List IScannedExtension) (now : Nat)
    (ex : IScannedExtension) (m : Metadata)
    (hfound : findExisting manifest extension userExtensions = some ex)
    (hmeta : ex.metadata = some m)
    (hpre : m.preRelease = some true)
    (hopt : options.installPreReleaseVersion = none) :
    (doRun manifest extension options userExtensions now).metadata.preRelease = some true := by
  cases extension with
  | uri loc => simp [doRun, hfound, getMetadata, hmeta, hpre]
  | gallery g =>
    by_cases hg : g.properties.isPreReleaseVersion
    · simp [doRun, hfound, hg]
    · simp [doRun, hfound, hg, hopt, getMetadata, hmeta, hpre]

/-- C4 witness: the sticky pre-release theorem applied at a concrete input. -/
theorem installTask_sticky_preRelease_witness :
    (doRun { name := "b", publisher := "pub" } (InstallSource.uri "loc") {}
      [{ identifier := { id := "pub.b" }, type := ExtensionType.User,
         isBuiltin := false, metadata := some { preRelease := some true } }]
      0).metadata.preRelease = some true := by
  exact installTask_sticky_preRelease _ _ _ _ 0
    { identifier := { id := "pub.b" }, type := ExtensionType.User, isBuiltin := false,
      metadata := some { preRelease := some true } }
    { preRelease := some true } (by decide) rfl rfl rfl

/-- C5: for a gallery extension failing the generic compatibility check,
`canInstall` succeeds iff the user-configured extension kind includes `web`,
and `getCompatibleVersion` falls back to the originally requested extension
under the same override, else `null`. -/
theorem canInstall_web_override (env : WebEnv) (g : GalleryExtension)
    (hfail : env.genericCanInstall g = false) :
    (canInstall env g = true ↔ isConfiguredToExecuteOnWeb env g = true) ∧
    (∀ sameVersion includePreRelease,
      env.genericCompatibleVersion g sameVersion includePreRelease = none →
      getCompatibleVersion env g sameVersion includePreRelease =
        (if isConfiguredToExecuteOnWeb env g then some g else none)) := by
  constructor
  · simp [canInstall, hfail]
  · intro sv pr hnone
    simp [getCompatibleVersion, hnone]

/-- C5 witness: the override theorem applied to a concrete environment in
which the generic check fails but the configured kinds include `web`. -/
theorem canInstall_web_override_witness :
    canInstall
      { genericCanInstall := fun _ => false
        genericCompatibleVersion := fun _ _ _ => none
        getUserConfiguredExtensionKind := fun _ => some ["web"] }
      { identifier := { id := "pub.c" }, publisherId := "pid",
        publisherDisplayName := "P", properties := { isPreReleaseVersion := false } }
      = true ∧
    getCompatibleVersion
      { genericCanInstall := fun _ => false
        genericCompatibleVersion := fun _ _ _ => none
        getUserConfiguredExtensionKind := fun _ => some ["web"] }
      { identifier := { id := "pub.c" }, publisherId := "pid",
        publisherDisplayName := "P", properties := { isPreReleaseVersion := false } }
      true false
      = some { identifier := { id := "pub.c" }, publisherId := "pid",
               publisherDisplayName := "P",
               properties := { isPreReleaseVersion := false } } := by
  constructor
  · exact (canInstall_web_override _ _ rfl).1.mpr rfl
  · rw [(canInstall_web_override _ _ rfl).2 true false rfl]
    rfl

/-- C9: `updateMetadata` returns the given local extension unchanged and
leaves the installed store untouched. -/
theorem updateMetadata_noop (store : WebExtensionsStore) (local_ : ILocalExtension)
    (metadata : IGalleryMetadata) :
    updateMetadata store local_ metadata = (local_, store) := rfl

/-- C10: the machine-scoped flag is monotone under install: an existing `true`
is never cleared, an explicit `true` option sets it, and a non-`true` option
leaves it at the carried-forward value. -/
theorem installTask_machineScoped_monotone (manifest : IExtensionManifest)
    (extension : InstallSource) (options : InstallOptions)
    (userExtensions : List IScannedExtension) (now : Nat) :
    (∀ ex m, findExisting manifest extension userExtensions = some ex →
      ex.metadata = some m → m.isMachineScoped = some true →
      (doRun manifest extension options userExtensions now).metadata.isMachineScoped
        = some true) ∧
    (options.isMachineScoped = some true →
      (doRun manifest extension options userExtensions now).metadata.isMachineScoped
        = some true) ∧
    (options.isMachineScoped ≠ some true →
      (doRun manifest extension options userExtensions now).metadata.isMachineScoped
        = ((((findExisting manifest extension userExtensions).bind
              (IScannedExtension.metadata ·)).getD {}).isMachineScoped)) := by
  refine ⟨?_, ?_, ?_⟩
  · intro ex m hfound hmeta hms
    cases extension <;>
      simp [doRun, hfound, getMetadata, hmeta, hms, jsOr_some_true_right]
  · intro hopt
    cases extension <;>
      simp [doRun, getMetadata, hopt, jsOr_some_true_left]
  · intro hopt
    cases extension <;>
      simp [doRun, getMetadata, jsOr_of_ne_some_true _ _ hopt]

/-- C10 witness: the monotonicity theorem applied at a concrete input where the
existing extension is machine-scoped and the options do not mention the flag. -/
theorem installTask_machineScoped_monotone_witness :
    (doRun { name := "b", publisher := "pub" } (InstallSource.uri "loc") {}
      [{ identifier := { id := "pub.b" }, type := ExtensionType.User,
         isBuiltin := false, metadata := some { isMachineScoped := some true } }]
      0).metadata.isMachineScoped = some true := by
  exact (installTask_machineScoped_monotone _ _ _ _ 0).1
    { identifier := { id := "pub.b" }, type := ExtensionType.User, isBuiltin := false,
      metadata := some { isMachineScoped := some true } }
    { isMachineScoped := some true } (by decide) rfl rfl

/-! ## When-clause rewriter lemmas: the scheme replacement -/

theorem replaceFile_cons4 (c1 c2 c3 c4 : Char) (rest : List Char) :
    replaceFile (c1 :: c2 :: c3 :: c4 :: rest) =
      if isFileAt c1 c2 c3 c4 then vscodeRemote ++ replaceFile rest
      else c1 :: replaceFile (c2 :: c3 :: c4 :: rest) := rfl

theorem replaceFile_nil : replaceFile [] = [] := rfl

theorem replaceFile_one (c : Char) : replaceFile [c] = [c] := rfl

theorem replaceFile_two (c d : Char) : replaceFile [c, d] = c :: replaceFile [d] := rfl

theorem replaceFile_three (c d e_ : Char) :
    replaceFile [c, d, e_] = c :: replaceFile [d, e_] := rfl

theorem containsFile_cons4 (c1 c2 c3 c4 : Char) (rest : List Char) :
    containsFile (c1 :: c2 :: c3 :: c4 :: rest) =
      (isFileAt c1 c2 c3 c4 || containsFile (c2 :: c3 :: c4 :: rest)) := rfl

theorem containsFile_cons_ne (a : Char) (t : List Char) (h : ¬ a = 'f') :
    containsFile (a :: t) = containsFile t := by
  match t with
  | [] => rfl
  | [b] => rfl
  | [b, c] => rfl
  | b :: c :: d :: t' =>
    rw [containsFile_cons4]
    have : isFileAt a b c d = false := by
      simp [isFileAt, h]
    rw [this, Bool.false_or]

theorem containsFile_append_no_f (xs t : List Char) (h : ∀ c ∈ xs, ¬ c = 'f') :
    containsFile (xs ++ t) = containsFile t := by
  induction xs with
  | nil => rfl
  | cons a xs ih =>
    rw [List.cons_append, containsFile_cons_ne _ _ (h a (List.mem_cons_self a xs)),
      ih (fun c hc => h c (List.mem_cons_of_mem a hc))]

theorem replaceFile_cons_of_not_file (c : Char) (cs : List Char)
    (h : ∀ c2 c3 c4 rest, cs = c2 :: c3 :: c4 :: rest → isFileAt c c2 c3 c4 = false) :
    replaceFile (c :: cs) = c :: replaceFile cs := by
  match cs with
  | [] => exact replaceFile_one c
  | [d] => exact replaceFile_two c d
  | [d, e_] => exact replaceFile_three c d e_
  | c2 :: c3 :: c4 :: rest =>
    rw [replaceFile_cons4, if_neg]
    simp [h c2 c3 c4 rest rfl]

theorem replaceFile_head_e (l r : List Char) (h : replaceFile l = 'e' :: r) :
    ∃ r0, l = 'e' :: r0 := by
  match l with
  | [] => rw [replaceFile_nil] at h; cases h
  | c :: cs =>
    by_cases hf : ∃ c2 c3 c4 rest, cs = c2 :: c3 :: c4 :: rest ∧ isFileAt c c2 c3 c4 = true
    · obtain ⟨c2, c3, c4, rest, rfl, hf⟩ := hf
      rw [replaceFile_cons4, if_pos hf] at h
      rw [show vscodeRemote ++ replaceFile rest =
        'v' :: ("scode-remote".data ++ replaceFile rest) from rfl] at h
      injection h with h1 _
      exact absurd h1 (by decide)
    · push_neg at hf
      rw [replaceFile_cons_of_not_file c cs
        (fun c2 c3 c4 rest hcs => Bool.eq_false_iff.mpr (hf c2 c3 c4 rest hcs))] at h
      injection h with h1 _
      exact ⟨cs, by rw [h1]⟩

theorem replaceFile_head_le (l r : List Char) (h : replaceFile l = 'l' :: 'e' :: r) :
    ∃ r0, l = 'l' :: 'e' :: r0 := by
  match l with
  | [] => rw [replaceFile_nil] at h; cases h
  | c :: cs =>
    by_cases hf : ∃ c2 c3 c4 rest, cs = c2 :: c3 :: c4 :: rest ∧ isFileAt c c2 c3 c4 = true
    · obtain ⟨c2, c3, c4, rest, rfl, hf⟩ := hf
      rw [replaceFile_cons4, if_pos hf] at h
      rw [show vscodeRemote ++ replaceFile rest =
        'v' :: ("scode-remote".data ++ replaceFile rest) from rfl] at h
      injection h with h1 _
      exact absurd h1 (by decide)
    · push_neg at hf
      rw [replaceFile_cons_of_not_file c cs
        (fun c2 c3 c4 rest hcs => Bool.eq_false_iff.mpr (hf c2 c3 c4 rest hcs))] at h
      injection h with h1 h2
      obtain ⟨r0, hr0⟩ := replaceFile_head_e cs r h2
      exact ⟨r0, by rw [h1, hr0]⟩

theorem replaceFile_head_ile (l r : List Char) (h : replaceFile l = 'i' :: 'l' :: 'e' :: r) :
    ∃ r0, l = 'i' :: 'l' :: 'e' :: r0 := by
  match l with
  | [] => rw [replaceFile_nil] at h; cases h
  | c :: cs =>
    by_cases hf : ∃ c2 c3 c4 rest, cs = c2 :: c3 :: c4 :: rest ∧ isFileAt c c2 c3 c4 = true
    · obtain ⟨c2, c3, c4, rest, rfl, hf⟩ := hf
      rw [replaceFile_cons4, if_pos hf] at h
      rw [show vscodeRemote ++ replaceFile rest =
        'v' :: ("scode-remote".data ++ replaceFile rest) from rfl] at h
      injection h with h1 _
      exact absurd h1 (by decide)
    · push_neg at hf
      rw [replaceFile_cons_of_not_file c cs
        (fun c2 c3 c4 rest hcs => Bool.eq_false_iff.mpr (hf c2 c3 c4 rest hcs))] at h
      injection h with h1 h2
      obtain ⟨r0, hr0⟩ := replaceFile_head_le cs r h2
      exact ⟨r0, by rw [h1, hr0]⟩

theorem containsFile_replaceFile (l : List Char) : containsFile (replaceFile l) = false := by
  induction l using replaceFile.induct with
  | case1 c1 c2 c3 c4 rest hf ih =>
    rw [replaceFile_cons4, if_pos hf, containsFile_append_no_f _ _ (by decide), ih]
  | case2 c1 c2 c3 c4 rest hf ih =>
    rw [replaceFile_cons4, if_neg hf]
    by_cases hc1 : c1 = 'f'
    · subst hc1
      match hX : replaceFile (c2 :: c3 :: c4 :: rest) with
      | [] => rfl
      | [x] => rfl
      | [x, y] => rfl
      | x :: y :: z :: X' =>
        rw [containsFile_cons4]
        have hcf : containsFile (x :: y :: z :: X') = false := by rw [← hX]; exact ih
        rw [hcf, Bool.or_false]
        by_cases hxyz : isFileAt 'f' x y z = true
        · exfalso
          have hx : (x = 'i' ∧ y = 'l') ∧ z = 'e' := by
            simpa [isFileAt] using hxyz
          obtain ⟨⟨rfl, rfl⟩, rfl⟩ := hx
          obtain ⟨r0, hr0⟩ := replaceFile_head_ile _ _ hX
          injection hr0 with e1 hr0
          injection hr0 with e2 hr0
          injection hr0 with e3 hr0
          exact absurd (by simp [isFileAt, e1, e2, e3] : isFileAt 'f' c2 c3 c4 = true)
            (by simpa using hf)
        · simpa using hxyz
    · rw [containsFile_cons_ne _ _ hc1, ih]
  | case3 c cs hshort ih =>
    rw [replaceFile_cons_of_not_file c cs
      (fun c2 c3 c4 rest hcs => (hshort c2 c3 c4 rest hcs).elim)]
    match cs with
    | [] => rfl
    | [d] => rfl
    | [d, e_] => rfl
    | c2 :: c3 :: c4 :: rest => exact (hshort c2 c3 c4 rest rfl).elim
  | case4 => rfl

theorem replaceFile_of_not_containsFile (l : List Char) (h : containsFile l = false) :
    replaceFile l = l := by
  induction l using replaceFile.induct with
  | case1 c1 c2 c3 c4 rest hf ih =>
    rw [containsFile_cons4, hf, Bool.true_or] at h
    cases h
  | case2 c1 c2 c3 c4 rest hf ih =>
    rw [containsFile_cons4] at h
    rw [replaceFile_cons4, if_neg hf, ih (Bool.or_eq_false_iff.mp h).2]
  | case3 c cs hshort ih =>
    have h' : containsFile cs = false := by
      match cs with
      | [] => rfl
      | [d] => rfl
      | [d, e_] => rfl
      | c2 :: c3 :: c4 :: rest => exact (hshort c2 c3 c4 rest rfl).elim
    rw [replaceFile_cons_of_not_file c cs
      (fun c2 c3 c4 rest hcs => (hshort c2 c3 c4 rest hcs).elim), ih h']
  | case4 => rfl

theorem replaceFile_idem (l : List Char) : replaceFile (replaceFile l) = replaceFile l :=
  replaceFile_of_not_containsFile _ (containsFile_replaceFile l)

/-! ## When-clause rewriter lemmas: serialization round-trip and mapper -/

theorem mk_data (s : String) : String.mk s.data = s := rfl

theorem decStr_semi (t : List Char) : decStr (';' :: t) = some ([], t) := by
  rw [decStr.eq_def]
  simp

theorem decStr_esc (c : Char) (t : List Char) :
    decStr ('\\' :: c :: t) = (decStr t).map (fun p => (c :: p.1, p.2)) := by
  rw [decStr.eq_def]
  simp

theorem decStr_other (c : Char) (t : List Char) (h1 : ¬ c = '\\') (h2 : ¬ c = ';') :
    decStr (c :: t) = (decStr t).map (fun p => (c :: p.1, p.2)) := by
  rw [decStr.eq_def]
  simp [h1, h2]

theorem decStr_escapeChars (l rest : List Char) :
    decStr (escapeChars l ++ ';' :: rest) = some (l, rest) := by
  induction l with
  | nil => rw [show escapeChars [] = [] from rfl, List.nil_append, decStr_semi]
  | cons c cs ih =>
    by_cases hc : c = '\\' ∨ c = ';'
    · have he : escapeChars (c :: cs) = '\\' :: c :: escapeChars cs := by
        rcases hc with rfl | rfl <;> simp [escapeChars]
      rw [he, List.cons_append, List.cons_append, decStr_esc, ih]
      rfl
    · push_neg at hc
      have he : escapeChars (c :: cs) = c :: escapeChars cs := by
        simp [escapeChars, hc.1, hc.2]
      rw [he, List.cons_append, decStr_other c _ hc.1 hc.2, ih]
      rfl

theorem decStr_encStr (s : String) (rest : List Char) :
    decStr (encStr s ++ rest) = some (s.data, rest) := by
  rw [encStr, List.append_assoc, List.singleton_append]
  exact decStr_escapeChars s.data rest

theorem decBool_encBool (b : Bool) (rest : List Char) :
    decBool (encBool b ++ rest) = some (b, rest) := by
  cases b <;> simp [encBool, decBool]

theorem decVal_encVal (v : CKValue) (rest : List Char) :
    decVal (encVal v ++ rest) = some (v, rest) := by
  cases v with
  | vstr s => simp [encVal, decVal, decStr_encStr, mk_data]
  | vbool b => simp [encVal, decVal, decBool_encBool]

theorem decRegex_encRegex (r : Option CKRegex) (rest : List Char) :
    decRegex (encRegex r ++ rest) = some (r, rest) := by
  cases r with
  | none => simp [encRegex, decRegex]
  | some rr =>
    obtain ⟨src, fg, fi, fm⟩ := rr
    simp [encRegex, decRegex, List.append_assoc, decStr_encStr, decBool_encBool, mk_data]

theorem decExpr_encExpr (e : ContextKeyExpression) (fuel : Nat) (rest : List Char)
    (h : exprDepth e ≤ fuel) :
    decExpr fuel (encExpr e ++ rest) = some (e, rest) := by
  induction e generalizing fuel rest with
  | defined key =>
    match fuel with
    | 0 => simp [exprDepth] at h
    | f + 1 => simp [encExpr, decExpr, decStr_encStr, mk_data]
  | notExpr key =>
    match fuel with
    | 0 => simp [exprDepth] at h
    | f + 1 => simp [encExpr, decExpr, decStr_encStr, mk_data]
  | equals key value =>
    match fuel with
    | 0 => simp [exprDepth] at h
    | f + 1 =>
      simp [encExpr, decExpr, List.append_assoc, decStr_encStr, decVal_encVal, mk_data]
  | notEquals key value =>
    match fuel with
    | 0 => simp [exprDepth] at h
    | f + 1 =>
      simp [encExpr, decExpr, List.append_assoc, decStr_encStr, decVal_encVal, mk_data]
  | regex key value =>
    match fuel with
    | 0 => simp [exprDepth] at h
    | f + 1 =>
      simp [encExpr, decExpr, List.append_assoc, decStr_encStr, decRegex_encRegex, mk_data]
  | inExpr key valueKey =>
    match fuel with
    | 0 => simp [exprDepth] at h
    | f + 1 =>
      simp [encExpr, decExpr, List.append_assoc, decStr_encStr, mk_data]
  | andExpr a b iha ihb =>
    match fuel with
    | 0 => simp [exprDepth] at h
    | f + 1 =>
      have hd : exprDepth a ≤ f ∧ exprDepth b ≤ f := by
        simp only [exprDepth] at h
        omega
      simp [encExpr, decExpr, List.append_assoc, iha f _ hd.1, ihb f rest hd.2]
  | orExpr a b iha ihb =>
    match fuel with
    | 0 => simp [exprDepth] at h
    | f + 1 =>
      have hd : exprDepth a ≤ f ∧ exprDepth b ≤ f := by
        simp only [exprDepth] at h
        omega
      simp [encExpr, decExpr, List.append_assoc, iha f _ hd.1, ihb f rest hd.2]

theorem exprDepth_le_length (e : ContextKeyExpression) : exprDepth e ≤ (encExpr e).length := by
  induction e with
  | defined key => simp [exprDepth, encExpr]
  | notExpr key => simp [exprDepth, encExpr]
  | equals key value => simp [exprDepth, encExpr]
  | notEquals key value => simp [exprDepth, encExpr]
  | regex key value => simp [exprDepth, encExpr]
  | inExpr key valueKey => simp [exprDepth, encExpr]
  | andExpr a b iha ihb =>
    simp only [exprDepth, encExpr, List.length_cons, List.length_append]
    omega
  | orExpr a b iha ihb =>
    simp only [exprDepth, encExpr, List.length_cons, List.length_append]
    omega

theorem deserialize_serialize (e : ContextKeyExpression) :
    deserialize (serialize e) = some e := by
  have h : decExpr ((encExpr e).length + 1) (encExpr e ++ []) = some (e, []) :=
    decExpr_encExpr e _ [] (le_trans (exprDepth_le_length e) (Nat.le_succ _))
  rw [List.append_nil] at h
  unfold deserialize serialize
  rw [show (String.mk (encExpr e)).data = encExpr e from rfl, h]
  rfl

theorem _mapResourceSchemeValue_idem (s : String) (b1 b2 : Bool) :
    _mapResourceSchemeValue (_mapResourceSchemeValue s b1) b2 =
      _mapResourceSchemeValue s b1 := by
  unfold _mapResourceSchemeValue
  rw [show (String.mk (replaceFile s.data)).data = replaceFile s.data from rfl,
    replaceFile_idem]

theorem mapExpr_idem (e : ContextKeyExpression) : mapExpr (mapExpr e) = mapExpr e := by
  induction e with
  | defined key => rfl
  | notExpr key => rfl
  | equals key value =>
    by_cases hk : key = "resourceScheme"
    · cases value with
      | vstr s => simp [mapExpr, hk, _mapResourceSchemeValue_idem]
      | vbool b => simp [mapExpr, hk]
    · simp [mapExpr, hk]
  | notEquals key value =>
    by_cases hk : key = "resourceScheme"
    · cases value with
      | vstr s => simp [mapExpr, hk, _mapResourceSchemeValue_idem]
      | vbool b => simp [mapExpr, hk]
    · simp [mapExpr, hk]
  | regex key value =>
    by_cases hk : key = "resourceScheme"
    · cases value with
      | some r => simp [mapExpr, hk, _mapResourceRegExpValue, _mapResourceSchemeValue_idem]
      | none => simp [mapExpr, hk]
    · simp [mapExpr, hk]
  | inExpr key valueKey => rfl
  | andExpr a b iha ihb => simp [mapExpr, iha, ihb]
  | orExpr a b iha ihb => simp [mapExpr, iha, ihb]

theorem _massageWhenUser_idem (element : WhenUser) :
    _massageWhenUser (_massageWhenUser element) = _massageWhenUser element := by
  obtain ⟨w⟩ := element
  cases w with
  | none => rfl
  | some w =>
    by_cases hrs : containsSubstr resourceSchemeChars w.data = false
    · simp [_massageWhenUser, hrs]
    · cases hdeser : deserialize w with
      | none => simp [_massageWhenUser, hrs, hdeser]
      | some expr =>
        simp only [_massageWhenUser, hrs, if_false, hdeser]
        by_cases hrs2 :
            containsSubstr resourceSchemeChars (serialize (mapExpr expr)).data = false
        · simp [_massageWhenUser, hrs2]
        · simp [_massageWhenUser, hrs2, deserialize_serialize, mapExpr_idem]

theorem _massageWhenUserArr_idem (elements : List WhenUser) :
    _massageWhenUserArr (_massageWhenUserArr elements) = _massageWhenUserArr elements := by
  induction elements with
  | nil => rfl
  | cons x xs ih =>
    simp only [_massageWhenUserArr, List.map_cons] at ih ⊢
    rw [_massageWhenUser_idem, ih]

theorem _massageLocWhenUser_idem (target : List (String × List WhenUser)) :
    _massageLocWhenUser (_massageLocWhenUser target) = _massageLocWhenUser target := by
  induction target with
  | nil => rfl
  | cons p rest ih =>
    simp only [_massageLocWhenUser, List.map_cons] at ih ⊢
    rw [_massageWhenUserArr_idem, ih]

/-! ## Claim theorems: when-clause rewriter -/

/-- C6: the when-clause rewrite is idempotent: massaging a descriptor list
twice equals massaging it once. -/
theorem massageWhenConditions_idempotent (extensions : List IExtensionDescription) :
    massageWhenConditions (massageWhenConditions extensions) =
      massageWhenConditions extensions := by
  induction extensions with
  | nil => rfl
  | cons x xs ih =>
    simp only [massageWhenConditions, List.map_cons] at ih ⊢
    rw [ih]
    obtain ⟨idf, loc, contr⟩ := x
    match contr with
    | none => rfl
    | some c =>
      simp [_massageLocWhenUser_idem, _massageWhenUserArr_idem]

/-- C7: an entry whose when-expression lacks the `resourceScheme` substring,
or fails to deserialize, is left exactly unchanged by the rewriter (the
rewriter is total, so no error is raised). -/
theorem massage_leaves_unparseable_unchanged (element : WhenUser) (w : String)
    (hw : element.when = some w)
    (h : containsSubstr resourceSchemeChars w.data = false ∨ deserialize w = none) :
    _massageWhenUser element = element := by
  obtain ⟨wOpt⟩ := element
  have hw' : wOpt = some w := hw
  subst hw'
  rcases h with h | h
  · simp [_massageWhenUser, h]
  · by_cases hrs : containsSubstr resourceSchemeChars w.data = false
    · simp [_massageWhenUser, hrs]
    · simp [_massageWhenUser, hrs, h]

/-- C7 witness: a concrete entry without the `resourceScheme` substring is
unchanged. -/
theorem massage_leaves_unparseable_unchanged_witness :
    _massageWhenUser { when := some "hello" } = { when := some "hello" } :=
  massage_leaves_unparseable_unchanged { when := some "hello" } "hello" rfl
    (Or.inl (by decide))

/-! ## Environment data lemmas: decimal rendering -/

theorem digitChar_toNat : ∀ d < 10, (Nat.digitChar d).toNat - 48 = d := by decide

theorem toDigitsCore_eq (fuel : Nat) : ∀ (n : Nat) (ds : List Char), n < fuel →
    Nat.toDigitsCore 10 fuel n ds = decChars n ++ ds := by
  induction fuel with
  | zero => omega
  | succ f ih =>
    intro n ds h
    by_cases hdiv : n / 10 = 0
    · have hn : n < 10 := by omega
      show (if n / 10 = 0 then Nat.digitChar (n % 10) :: ds
        else Nat.toDigitsCore 10 f (n / 10) (Nat.digitChar (n % 10) :: ds)) = decChars n ++ ds
      rw [if_pos hdiv, decChars.eq_def, if_pos hn, Nat.mod_eq_of_lt hn]
      rfl
    · have hn : ¬ n < 10 := fun hh => hdiv (Nat.div_eq_of_lt hh)
      have hlt : n / 10 < f := by
        have h1 : n / 10 < n := Nat.div_lt_self (by omega) (by omega)
        omega
      show (if n / 10 = 0 then Nat.digitChar (n % 10) :: ds
        else Nat.toDigitsCore 10 f (n / 10) (Nat.digitChar (n % 10) :: ds)) = decChars n ++ ds
      have hdn : decChars n = decChars (n / 10) ++ [Nat.digitChar (n % 10)] := by
        rw [decChars.eq_def]
        exact if_neg hn
      rw [if_neg hdiv, ih (n / 10) _ hlt, hdn, List.append_assoc, List.singleton_append]

theorem digitsVal_append_one (xs : List Char) (c : Char) :
    digitsVal (xs ++ [c]) = digitsVal xs * 10 + (c.toNat - 48) := by
  unfold digitsVal
  rw [List.foldl_append]
  rfl

theorem digitsVal_decChars (n : Nat) : digitsVal (decChars n) = n := by
  induction n using Nat.strong_induction_on with
  | _ n ih =>
    by_cases h : n < 10
    · rw [decChars.eq_def, if_pos h]
      show digitsVal [Nat.digitChar n] = n
      simp [digitsVal, digitChar_toNat n h]
    · rw [decChars.eq_def, if_neg h, digitsVal_append_one]
      have hlt : n / 10 < n := Nat.div_lt_self (by omega) (by omega)
      rw [ih _ hlt, digitChar_toNat _ (Nat.mod_lt _ (by omega))]
      omega

theorem repr_eq_decChars (n : Nat) : Nat.repr n = (decChars n).asString := by
  show (Nat.toDigits 10 n).asString = (decChars n).asString
  rw [show Nat.toDigits 10 n = Nat.toDigitsCore 10 (n + 1) n [] from rfl,
    toDigitsCore_eq (n + 1) n [] (Nat.lt_succ_self n), List.append_nil]

theorem nat_repr_injective (m n : Nat) (h : Nat.repr m = Nat.repr n) : m = n := by
  rw [repr_eq_decChars, repr_eq_decChars] at h
  have hdata : decChars m = decChars n := by
    have hd := congrArg String.data h
    simpa [List.asString] using hd
  have hv := congrArg digitsVal hdata
  rwa [digitsVal_decChars, digitsVal_decChars] at hv

/-! ## Claim theorems: environment data -/

/-- C8: two successive `getEnvironmentData` calls return distinct
extension-host log paths; both are the joined logs path plus `exthost`
followed by a numeric suffix, and the suffixes strictly increase. -/
theorem getEnvironmentData_fresh_log_path (env : NativeEnvironmentService)
    (connectionToken : String) (namePool : Nat) :
    (getEnvironmentData env connectionToken namePool).1.extensionHostLogsPath ≠
      (getEnvironmentData env connectionToken
        (getEnvironmentData env connectionToken namePool).2).1.extensionHostLogsPath ∧
    (∃ n1 n2,
      (getEnvironmentData env connectionToken namePool).1.extensionHostLogsPath =
        joinPath env.logsPath "exthost" ++ Nat.repr n1 ∧
      (getEnvironmentData env connectionToken
          (getEnvironmentData env connectionToken namePool).2).1.extensionHostLogsPath =
        joinPath env.logsPath "exthost" ++ Nat.repr n2 ∧
      n1 < n2) := by
  have hshape : ∀ k : Nat,
      (getEnvironmentData env connectionToken k).1.extensionHostLogsPath =
        joinPath env.logsPath "exthost" ++ Nat.repr k := by
    intro k
    show joinPath env.logsPath ("exthost" ++ Nat.repr k) =
      joinPath env.logsPath "exthost" ++ Nat.repr k
    unfold joinPath
    rw [String.append_assoc (env.logsPath ++ "/") "exthost" (Nat.repr k)]
  have h2 : (getEnvironmentData env connectionToken namePool).2 = namePool + 1 := rfl
  rw [h2]
  refine ⟨?_, namePool, namePool + 1, hshape namePool, hshape (namePool + 1), by omega⟩
  rw [hshape namePool, hshape (namePool + 1)]
  intro heq
  have hdata := congrArg String.data heq
  simp only [String.data_append] at hdata
  have hrepr : (Nat.repr namePool).data = (Nat.repr (namePool + 1)).data :=
    List.append_cancel_left hdata
  have : Nat.repr namePool = Nat.repr (namePool + 1) := by
    cases hr : Nat.repr namePool
    cases hr2 : Nat.repr (namePool + 1)
    rw [hr, hr2] at hrepr
    exact congrArg String.mk hrepr
  exact absurd (nat_repr_injective _ _ this) (by omega)

end Spec2Proof
